import Mathlib

/-!
Verification development for the scope-tracking import resolver of
src/rust_parser/parser.rs (the gazelle_rust rust parser).

The Rust source walks a syn abstract syntax tree with an AstVisitor that
maintains a stack of lexical scopes (mod_stack), a flat set of all names
currently shadowed by a local declaration (scope_mods), two buckets of
observed external references (imports, test_imports) and three boolean
hints.  This file gives a shallow embedding of that visitor: the syntax
tree is a Lean inductive covering the node kinds the visitor overrides
(use items with their use-trees, extern-crate items, mods, fns, blocks and
qualified paths, plus a generic container node standing for any other
syntax node whose default visit just recurses into its children), and the
visitor methods become Lean functions threading the AstVisitor state.

The Rust code calls .unwrap() / .expect() on the scope stack; those
panics are modelled by returning none, so a visit function has type
AstVisitor → ... → Option AstVisitor and a none result corresponds to the
fatal stack-underflow failure.
-/

/-- Identifiers (syn::Ident).  Equality is textual, so a plain String. -/
abbrev Ident := String

/-- One lexical scope frame (struct Scope in parser.rs): the list of names
locally introduced in this frame (field mods, a Vec the source pushes to)
and whether the frame is behind #[test] or #[cfg(test)].  The Lean list is
consed at the front where the Vec pushes at the back; only the set of
elements matters, since pop removes them all. -/
structure Scope where
  mods : List Ident
  isTestOnly : Bool
  deriving Repr, DecidableEq

/-- The three collected hints (messages_rust_proto::Hints). -/
structure Hints where
  hasMain : Bool
  hasTest : Bool
  hasProcMacro : Bool
  deriving Repr, DecidableEq

/-- The visitor state (struct AstVisitor in parser.rs).  HashSets become
Finsets; the VecDeque used as a stack becomes a List whose head is the top
(the back of the VecDeque). -/
structure AstVisitor where
  imports : Finset Ident
  testImports : Finset Ident
  modStack : List Scope
  scopeMods : Finset Ident
  hints : Hints
  deriving DecidableEq

/-- AstVisitor::default(): one default scope frame pushed on the stack. -/
def initialVisitor : AstVisitor :=
  ⟨∅, ∅, [⟨[], false⟩], ∅, ⟨false, false, false⟩⟩

/-- AstVisitor::add_import.  The source ignores the keyword "crate", then
ignores names in scope_mods, then reads the top frame (unwrap; none models
the panic on an empty stack) to pick the bucket. -/
def addImport (v : AstVisitor) (ident : Ident) : Option AstVisitor :=
  if ident == "crate" then some v
  else if ident ∈ v.scopeMods then some v
  else
    match v.modStack with
    | [] => none
    | top :: _ =>
      if top.isTestOnly then
        some { v with testImports := insert ident v.testImports }
      else
        some { v with imports := insert ident v.imports }

/-- AstVisitor::add_mod: declare a local name in the current frame unless
it is already shadowed (first declaration wins).  The back_mut().unwrap()
of the source is the none case on an empty stack. -/
def addMod (v : AstVisitor) (ident : Ident) : Option AstVisitor :=
  if ident ∈ v.scopeMods then some v
  else
    match v.modStack with
    | [] => none
    | top :: rest =>
      some { v with
               scopeMods := insert ident v.scopeMods,
               modStack := ⟨ident :: top.mods, top.isTestOnly⟩ :: rest }

/-- AstVisitor::push_scope: the new frame inherits test-onliness from the
parent frame (read with unwrap, hence the none case). -/
def pushScope (v : AstVisitor) (test : Bool) : Option AstVisitor :=
  match v.modStack with
  | [] => none
  | top :: rest =>
    some { v with modStack := ⟨[], test || top.isTestOnly⟩ :: top :: rest }

/-- AstVisitor::pop_scope: remove the top frame and erase every name it
introduced from scope_mods.  The expect("hit bottom of stack") is the none
case. -/
def popScope (v : AstVisitor) : Option AstVisitor :=
  match v.modStack with
  | [] => none
  | top :: rest =>
    some { v with
             modStack := rest,
             scopeMods := top.mods.foldl Finset.erase v.scopeMods }

/-- AstVisitor::is_root_scope. -/
def isRootScope (v : AstVisitor) : Bool :=
  v.modStack.length == 1

/-- AstVisitor::is_test_only_scope (unwrap modelled as false default is
not needed; we only read it through addImport, which matches the stack
itself). -/
def isTestOnlyScope (v : AstVisitor) : Option Bool :=
  match v.modStack with
  | [] => none
  | top :: _ => some top.isTestOnly

/-- syn::AttrStyle. -/
inductive AttrStyle where
  | outer
  | inner
  deriving Repr, DecidableEq

/-- proc_macro2::Delimiter. -/
inductive Delimiter where
  | parenthesis
  | brace
  | bracket
  | noDelim
  deriving Repr, DecidableEq

/-- proc_macro2::TokenTree, reduced to what the cfg(test) detection
inspects: idents, delimited groups, and everything else. -/
inductive TokenTree where
  | ident (s : String)
  | group (delim : Delimiter) (stream : List TokenTree)
  | other

/-- syn::Attribute, reduced to the fields the source reads: style, the
idents of the attribute path segments, and the token stream. -/
structure Attr where
  style : AttrStyle
  pathSegments : List Ident
  tokens : List TokenTree

/-- token_stream_single_item: the sole element of a stream, if any. -/
def tokenStreamSingleItem (stream : List TokenTree) : Option TokenTree :=
  match stream with
  | [t] => some t
  | _ => none

/-- The #[cfg(test)] detection of visit_item_mod, for one attribute: an
outer attribute whose path is the single segment cfg and whose tokens are
a single parenthesised group containing the single ident test. -/
def isCfgTest (attr : Attr) : Bool :=
  match attr.style, attr.pathSegments with
  | .outer, [seg] =>
    if seg == "cfg" then
      match tokenStreamSingleItem attr.tokens with
      | some (.group .parenthesis inner) =>
        match tokenStreamSingleItem inner with
        | some (.ident i) => i == "test"
        | _ => false
      | _ => false
    else false
  | _, _ => false

/-- The attribute loop of visit_item_fn (the else branch): folds over the
outer single-segment attributes, setting has_test plus the test-only flag
on a test attribute and has_proc_macro on a proc_macro attribute. -/
def scanFnAttrs (h : Hints) (t : Bool) : List Attr → Hints × Bool
  | [] => (h, t)
  | attr :: rest =>
    match attr.style, attr.pathSegments with
    | .outer, [name] =>
      if name == "test" then
        scanFnAttrs { h with hasTest := true } true rest
      else if name == "proc_macro" then
        scanFnAttrs { h with hasProcMacro := true } t rest
      else
        scanFnAttrs h t rest
    | _, _ => scanFnAttrs h t rest

mutual
/-- syn::UseTree, with the fields the visitor reads.  The rename
constructor carries the original ident and the new binding (field rename
in syn::UseRename, here called target). -/
inductive UseTree where
  | path (ident : Ident) (tree : UseTree)
  | name (ident : Ident)
  | rename (ident : Ident) (target : Ident)
  | glob
  | group (items : UseTreeList)
/-- A list of use-trees (the items of a use group), kept mutual with
UseTree so that structural recursion and induction stay simple. -/
inductive UseTreeList where
  | nil
  | cons (head : UseTree) (tail : UseTreeList)
end

mutual
/-- The syntax-tree nodes whose visits the source overrides, plus a
generic container node (other) standing for any syntax node whose default
visit just recurses into children: expressions, statements, signatures and
so on.  itemFn carries the statement list of its body block; the visit
reaches that block through visit_block, pushing a second scope. -/
inductive Node where
  | itemUse (tree : UseTree)
  | itemExternCrate (ident : Ident)
  | itemMod (attrs : List Attr) (ident : Ident) (content : NodeList)
  | itemFn (attrs : List Attr) (ident : Ident) (body : NodeList)
  | block (stmts : NodeList)
  | pathExpr (segments : List Ident)
  | other (children : NodeList)
/-- A list of nodes, mutual with Node. -/
inductive NodeList where
  | nil
  | cons (head : Node) (tail : NodeList)
end

/-- The self-detection loop of visit_use_path: for each group item that is
a plain name equal to self, declare the path ident (the segment before the
group) as a local mod. -/
def selfScan (v : AstVisitor) (ident : Ident) : UseTreeList → Option AstVisitor
  | .nil => some v
  | .cons (.name n) rest =>
    if n == "self" then
      (addMod v ident).bind fun v1 => selfScan v1 ident rest
    else
      selfScan v ident rest
  | .cons _ rest => selfScan v ident rest

mutual
/-- The use-tree visits: visit_use_name declares the name as a local mod;
visit_use_rename classifies the original ident as an import and declares
the new binding; visit_use_path runs the self-detection on a trailing
group and then recurses into its subtree; groups recurse into their
items. -/
def visitUseTree (v : AstVisitor) : UseTree → Option AstVisitor
  | .path ident tree =>
    (match tree with
     | .group items => selfScan v ident items
     | _ => some v).bind fun v1 => visitUseTree v1 tree
  | .name ident => addMod v ident
  | .rename ident target =>
    (addImport v ident).bind fun v1 => addMod v1 target
  | .glob => some v
  | .group items => visitUseTreeList v items
/-- Default recursion over the items of a use group. -/
def visitUseTreeList (v : AstVisitor) : UseTreeList → Option AstVisitor
  | .nil => some v
  | .cons t rest => (visitUseTree v t).bind fun v1 => visitUseTreeList v1 rest
end

mutual
/-- The node visits of impl Visit for AstVisitor.  itemUse classifies the
first path segment (or the plain name) as an import and then recurses into
the use-tree.  itemExternCrate classifies its ident directly.  itemMod
declares its own name in the enclosing scope, pushes a scope flagged by
the cfg(test) detection, recurses and pops.  itemFn sets has_main for a
root-scope fn named main, otherwise scans its attributes; it then pushes
its scope, and the default recursion reaches the body block through
visit_block, pushing a second scope.  block pushes an unflagged scope.
pathExpr classifies the first segment of a multi-segment path.  other just
recurses. -/
def visitNode (v : AstVisitor) : Node → Option AstVisitor
  | .itemUse tree =>
    (match tree with
     | .path ident _ => addImport v ident
     | .name ident => addImport v ident
     | _ => some v).bind fun v1 => visitUseTree v1 tree
  | .itemExternCrate ident => addImport v ident
  | .itemMod attrs ident content =>
    (addMod v ident).bind fun v1 =>
    (pushScope v1 (attrs.any isCfgTest)).bind fun v2 =>
    (visitNodes v2 content).bind fun v3 =>
    popScope v3
  | .itemFn attrs ident body =>
    (if isRootScope v && (ident == "main") then
       pushScope { v with hints := { v.hints with hasMain := true } } false
     else
       pushScope { v with hints := (scanFnAttrs v.hints false attrs).1 }
         (scanFnAttrs v.hints false attrs).2).bind fun v1 =>
    ((pushScope v1 false).bind fun v2 =>
      (visitNodes v2 body).bind fun v3 => popScope v3).bind fun v4 =>
    popScope v4
  | .block stmts =>
    (pushScope v false).bind fun v1 =>
    (visitNodes v1 stmts).bind fun v2 =>
    popScope v2
  | .pathExpr segments =>
    match segments with
    | s0 :: _ :: _ => addImport v s0
    | _ => some v
  | .other children => visitNodes v children
/-- Default left-to-right recursion over sibling nodes. -/
def visitNodes (v : AstVisitor) : NodeList → Option AstVisitor
  | .nil => some v
  | .cons n rest => (visitNode v n).bind fun v1 => visitNodes v1 rest
end

/-- First character is a lowercase letter: models
s.chars().next().map(is_lowercase).unwrap_or(false) from filter_imports
(Char.isLower covers the ASCII identifiers this tool meets). -/
def firstCharLowercase (s : String) : Bool :=
  match s.data with
  | [] => false
  | c :: _ => c.isLower

/-- filter_imports: keep only the lowercase-leading identifiers.  The
source turns a HashSet into a Vec; both ends are modelled as Finsets since
only the set of retained identifiers is observable. -/
def filterImports (s : Finset Ident) : Finset Ident :=
  s.filter fun i => firstCharLowercase i = true

/-- struct RustImports. -/
structure RustImports where
  hints : Hints
  imports : Finset Ident
  testImports : Finset Ident
  deriving DecidableEq

/-- The pure tail of parse_imports, from the parsed syntax tree to the
RustImports value: run the visitor from its default state, subtract the
normal bucket from the test bucket, and filter both. -/
def analyzeAst (file : NodeList) : Option RustImports :=
  match visitNodes initialVisitor file with
  | none => none
  | some v =>
    some ⟨v.hints, filterImports v.imports,
          filterImports (v.testImports \ v.imports)⟩

/-- The observable outcome of one parse_imports call: a returned
RustImports, a returned error (the ? propagations), a process exit
(std::process::exit) or a panic (the expect on the scope stack). -/
inductive ParseOutcome where
  | ok (result : RustImports)
  | err (msg : String)
  | exited (code : Nat)
  | panicked
  deriving DecidableEq

/-- Does the outcome abort the whole process (taking any same-process
analysis of other files down with it)? -/
def abortsProcess (o : ParseOutcome) : Bool :=
  match o with
  | .exited _ => true
  | .panicked => true
  | _ => false

/-- parse_imports with its effects reified: the File::open outcome, the
read_to_string outcome and the syn::parse_file function are inputs.  On an
open failure the source prints the path and cause and calls
std::process::exit(1); read and parse failures propagate with ? as
returned errors; then the traversal runs and the result is assembled. -/
def parseImports (openResult : Except String Unit)
    (readResult : Except String String)
    (parseFile : String → Except String NodeList) : ParseOutcome :=
  match openResult with
  | .error _ => .exited 1
  | .ok _ =>
    match readResult with
    | .error e => .err e
    | .ok content =>
      match parseFile content with
      | .error e => .err e
      | .ok ast =>
        match analyzeAst ast with
        | none => .panicked
        | some r => .ok r

/-!
## The scope-stack invariant

scope_mods is exactly the union of the names introduced by the open
frames, the frames introduce pairwise disjoint name sets (add_mod refuses
a name that any open frame already holds), and the stack is nonempty.
-/

/-- The union of the names introduced by a list of frames. -/
def stackMods : List Scope → Finset Ident
  | [] => ∅
  | s :: rest => s.mods.toFinset ∪ stackMods rest

/-- The open frames introduce pairwise disjoint name sets. -/
def ScopesDisjoint (l : List Scope) : Prop :=
  List.Pairwise (fun s t => ∀ x, x ∈ s.mods → x ∈ t.mods → False) l

/-- The reachable-state invariant of the visitor. -/
def VInv (v : AstVisitor) : Prop :=
  v.modStack ≠ [] ∧ v.scopeMods = stackMods v.modStack ∧
    ScopesDisjoint v.modStack

theorem mem_stackMods {x : Ident} {l : List Scope} :
    x ∈ stackMods l ↔ ∃ s, s ∈ l ∧ x ∈ s.mods := by
  induction l with
  | nil => simp [stackMods]
  | cons s rest ih =>
    simp only [stackMods, Finset.mem_union, List.mem_toFinset, ih,
      List.mem_cons]
    constructor
    · rintro (hx | ⟨t, ht, hx⟩)
      · exact ⟨s, Or.inl rfl, hx⟩
      · exact ⟨t, Or.inr ht, hx⟩
    · rintro ⟨t, (rfl | ht), hx⟩
      · exact Or.inl hx
      · exact Or.inr ⟨t, ht, hx⟩

theorem initialVisitor_inv : VInv initialVisitor := by
  refine ⟨by simp [initialVisitor], by simp [initialVisitor, stackMods], ?_⟩
  simp [initialVisitor, ScopesDisjoint]

theorem foldl_erase_eq_sdiff (l : List Ident) (s : Finset Ident) :
    l.foldl Finset.erase s = s \ l.toFinset := by
  induction l generalizing s with
  | nil => simp
  | cons a l ih =>
    simp only [List.foldl_cons, ih, List.toFinset_cons]
    ext x
    simp only [Finset.mem_sdiff, Finset.mem_erase, Finset.mem_insert]
    tauto

/-!
## Step equations for the primitive visitor operations
-/

theorem addImport_eq (v : AstVisitor) (i : Ident) (top : Scope)
    (rest : List Scope) (h : v.modStack = top :: rest) :
    addImport v i =
      some (if i = "crate" then v
            else if i ∈ v.scopeMods then v
            else if top.isTestOnly then
              { v with testImports := insert i v.testImports }
            else
              { v with imports := insert i v.imports }) := by
  simp only [addImport, h, beq_iff_eq]
  by_cases h1 : i = "crate" <;> simp only [h1, if_true, if_false, ite_true, ite_false]
  by_cases h2 : i ∈ v.scopeMods <;> simp only [h2, if_true, if_false, ite_true, ite_false]
  split <;> rfl

theorem addMod_eq (v : AstVisitor) (i : Ident) (top : Scope)
    (rest : List Scope) (h : v.modStack = top :: rest) :
    addMod v i =
      some (if i ∈ v.scopeMods then v
            else { v with
                     scopeMods := insert i v.scopeMods,
                     modStack := ⟨i :: top.mods, top.isTestOnly⟩ :: rest }) := by
  simp only [addMod, h]
  by_cases h1 : i ∈ v.scopeMods <;> simp [h1]

theorem pushScope_eq (v : AstVisitor) (t : Bool) (top : Scope)
    (rest : List Scope) (h : v.modStack = top :: rest) :
    pushScope v t =
      some { v with modStack := ⟨[], t || top.isTestOnly⟩ :: top :: rest } := by
  simp [pushScope, h]

theorem popScope_eq (v : AstVisitor) (top : Scope) (rest : List Scope)
    (h : v.modStack = top :: rest) :
    popScope v =
      some { v with modStack := rest,
                    scopeMods := v.scopeMods \ top.mods.toFinset } := by
  simp [popScope, h, foldl_erase_eq_sdiff]

/-- VInv only looks at the stack and the shadow set. -/
theorem VInv_mk (v w : AstVisitor) (hs : w.modStack = v.modStack)
    (hm : w.scopeMods = v.scopeMods) (hinv : VInv v) : VInv w := by
  unfold VInv at *
  rw [hs, hm]
  exact hinv

/-!
## What one visit step does to the state

UseOk relates the state before and after a use-tree visit (no scope is
pushed or popped there, no hint is touched); VisitOk relates the state
before and after visiting any node.  In both, the frames below the entry
top frame are untouched and the entry top frame can only gain local
names, keeping its test flag.
-/

/-- Effect of a use-tree visit on the state. -/
def UseOk (v v1 : AstVisitor) (top : Scope) (rest : List Scope) : Prop :=
  VInv v1 ∧
  (∃ extra, v1.modStack = Scope.mk (extra ++ top.mods) top.isTestOnly :: rest) ∧
  v.imports ⊆ v1.imports ∧
  v.testImports ⊆ v1.testImports ∧
  (top.isTestOnly = true → v1.imports = v.imports) ∧
  v1.hints = v.hints

/-- Effect of a node visit on the state. -/
def VisitOk (v v1 : AstVisitor) (top : Scope) (rest : List Scope) : Prop :=
  VInv v1 ∧
  (∃ extra, v1.modStack = Scope.mk (extra ++ top.mods) top.isTestOnly :: rest) ∧
  v.imports ⊆ v1.imports ∧
  v.testImports ⊆ v1.testImports ∧
  (top.isTestOnly = true → v1.imports = v.imports) ∧
  (rest ≠ [] → v1.hints.hasMain = v.hints.hasMain) ∧
  (v.hints.hasMain = true → v1.hints.hasMain = true)

theorem UseOk.toVisitOk {v v1 : AstVisitor} {top : Scope} {rest : List Scope}
    (h : UseOk v v1 top rest) : VisitOk v v1 top rest := by
  obtain ⟨hinv, hstack, himp, htest, htonly, hhints⟩ := h
  exact ⟨hinv, hstack, himp, htest, htonly, fun _ => by rw [hhints],
         fun hm => by rw [hhints]; exact hm⟩

theorem UseOk_refl {v : AstVisitor} {top : Scope} {rest : List Scope}
    (hinv : VInv v) (h : v.modStack = top :: rest) : UseOk v v top rest :=
  ⟨hinv, ⟨[], by simpa using h⟩, Finset.Subset.refl _, Finset.Subset.refl _,
   fun _ => rfl, rfl⟩

theorem UseOk_trans {v v1 v2 : AstVisitor} {top : Scope} {rest : List Scope}
    {e1 : List Ident} (h1 : UseOk v v1 top rest)
    (h2 : UseOk v1 v2 (Scope.mk (e1 ++ top.mods) top.isTestOnly) rest) :
    UseOk v v2 top rest := by
  obtain ⟨hinv1, _, himp1, htest1, htonly1, hh1⟩ := h1
  obtain ⟨hinv2, ⟨e2, hst2⟩, himp2, htest2, htonly2, hh2⟩ := h2
  refine ⟨hinv2, ⟨e2 ++ e1, ?_⟩, Finset.Subset.trans himp1 himp2,
          Finset.Subset.trans htest1 htest2, ?_, by rw [hh2, hh1]⟩
  · rw [hst2, List.append_assoc]
  · intro ht
    rw [htonly2 ht, htonly1 ht]

theorem VisitOk_trans {v v1 v2 : AstVisitor} {top : Scope} {rest : List Scope}
    {e1 : List Ident} (h1 : VisitOk v v1 top rest)
    (h2 : VisitOk v1 v2 (Scope.mk (e1 ++ top.mods) top.isTestOnly) rest) :
    VisitOk v v2 top rest := by
  obtain ⟨hinv1, _, himp1, htest1, htonly1, hm1, hmm1⟩ := h1
  obtain ⟨hinv2, ⟨e2, hst2⟩, himp2, htest2, htonly2, hm2, hmm2⟩ := h2
  refine ⟨hinv2, ⟨e2 ++ e1, ?_⟩, Finset.Subset.trans himp1 himp2,
          Finset.Subset.trans htest1 htest2, ?_, ?_, ?_⟩
  · rw [hst2, List.append_assoc]
  · intro ht
    rw [htonly2 ht, htonly1 ht]
  · intro hr
    rw [hm2 hr, hm1 hr]
  · intro hm
    exact hmm2 (hmm1 hm)

/-!
## The primitive operations succeed on a nonempty stack and respect VInv
-/

theorem addImport_ok (v : AstVisitor) (i : Ident) (top : Scope)
    (rest : List Scope) (hinv : VInv v) (h : v.modStack = top :: rest) :
    ∃ v1, addImport v i = some v1 ∧ v1.modStack = v.modStack ∧
      v1.scopeMods = v.scopeMods ∧ v1.hints = v.hints ∧
      v.imports ⊆ v1.imports ∧ v.testImports ⊆ v1.testImports ∧
      (top.isTestOnly = true → v1.imports = v.imports) ∧
      (i ∉ v.scopeMods → i ≠ "crate" → i ∈ v1.imports ∨ i ∈ v1.testImports) ∧
      v1.imports ⊆ insert i v.imports ∧
      v1.testImports ⊆ insert i v.testImports ∧
      VInv v1 := by
  rw [addImport_eq v i top rest h]
  by_cases h1 : i = "crate"
  · rw [if_pos h1]
    exact ⟨v, rfl, rfl, rfl, rfl, Finset.Subset.refl _, Finset.Subset.refl _,
           fun _ => rfl, fun _ hc => absurd h1 hc, Finset.subset_insert _ _,
           Finset.subset_insert _ _, hinv⟩
  · rw [if_neg h1]
    by_cases h2 : i ∈ v.scopeMods
    · rw [if_pos h2]
      exact ⟨v, rfl, rfl, rfl, rfl, Finset.Subset.refl _, Finset.Subset.refl _,
             fun _ => rfl, fun hni _ => absurd h2 hni, Finset.subset_insert _ _,
             Finset.subset_insert _ _, hinv⟩
    · rw [if_neg h2]
      by_cases h3 : top.isTestOnly = true
      · rw [if_pos h3]
        refine ⟨_, rfl, rfl, rfl, rfl, Finset.Subset.refl _,
                Finset.subset_insert _ _, fun _ => rfl,
                fun _ _ => Or.inr (Finset.mem_insert_self _ _),
                Finset.subset_insert _ _, Finset.Subset.refl _, ?_⟩
        exact VInv_mk v _ rfl rfl hinv
      · rw [if_neg h3]
        refine ⟨_, rfl, rfl, rfl, rfl, Finset.subset_insert _ _,
                Finset.Subset.refl _, fun hc => absurd hc h3,
                fun _ _ => Or.inl (Finset.mem_insert_self _ _),
                Finset.Subset.refl _, Finset.subset_insert _ _, ?_⟩
        exact VInv_mk v _ rfl rfl hinv

theorem addMod_ok (v : AstVisitor) (i : Ident) (top : Scope)
    (rest : List Scope) (hinv : VInv v) (h : v.modStack = top :: rest) :
    ∃ v1, addMod v i = some v1 ∧
      (∃ extra, v1.modStack = Scope.mk (extra ++ top.mods) top.isTestOnly :: rest) ∧
      v1.scopeMods = insert i v.scopeMods ∧
      v1.imports = v.imports ∧ v1.testImports = v.testImports ∧
      v1.hints = v.hints ∧ VInv v1 := by
  rw [addMod_eq v i top rest h]
  by_cases h1 : i ∈ v.scopeMods
  · rw [if_pos h1]
    refine ⟨v, rfl, ⟨[], by simpa using h⟩, ?_, rfl, rfl, rfl, hinv⟩
    exact (Finset.insert_eq_self.mpr h1).symm
  · rw [if_neg h1]
    obtain ⟨hne, hsm, hdisj⟩ := hinv
    have hnotin : ∀ s ∈ v.modStack, i ∉ s.mods := by
      intro s hs hin
      apply h1
      rw [hsm]
      exact mem_stackMods.mpr ⟨s, hs, hin⟩
    refine ⟨_, rfl, ⟨[i], rfl⟩, rfl, rfl, rfl, rfl, ?_, ?_, ?_⟩
    · simp
    · show insert i v.scopeMods = stackMods (⟨i :: top.mods, top.isTestOnly⟩ :: rest)
      rw [hsm, h]
      show insert i (stackMods (top :: rest)) =
        (i :: top.mods).toFinset ∪ stackMods rest
      simp [stackMods, Finset.insert_union]
    · show ScopesDisjoint (⟨i :: top.mods, top.isTestOnly⟩ :: rest)
      rw [h] at hdisj
      unfold ScopesDisjoint at hdisj ⊢
      rw [List.pairwise_cons] at hdisj ⊢
      obtain ⟨htop, hrest⟩ := hdisj
      refine ⟨?_, hrest⟩
      intro t ht x hx hxt
      rcases List.mem_cons.mp hx with rfl | hx2
      · exact hnotin t (by rw [h]; exact List.mem_cons_of_mem _ ht) hxt
      · exact htop t ht x hx2 hxt

theorem pushScope_ok (v : AstVisitor) (t : Bool) (top : Scope)
    (rest : List Scope) (hinv : VInv v) (h : v.modStack = top :: rest) :
    ∃ v1, pushScope v t = some v1 ∧
      v1.modStack = Scope.mk [] (t || top.isTestOnly) :: top :: rest ∧
      v1.scopeMods = v.scopeMods ∧ v1.imports = v.imports ∧
      v1.testImports = v.testImports ∧ v1.hints = v.hints ∧ VInv v1 := by
  rw [pushScope_eq v t top rest h]
  obtain ⟨hne, hsm, hdisj⟩ := hinv
  refine ⟨_, rfl, rfl, rfl, rfl, rfl, rfl, ?_, ?_, ?_⟩
  · simp
  · show v.scopeMods = stackMods (⟨[], t || top.isTestOnly⟩ :: top :: rest)
    rw [hsm, h]
    show stackMods (top :: rest) =
      (List.nil).toFinset ∪ stackMods (top :: rest)
    simp
  · show ScopesDisjoint (⟨[], t || top.isTestOnly⟩ :: top :: rest)
    rw [h] at hdisj
    unfold ScopesDisjoint at hdisj ⊢
    rw [List.pairwise_cons]
    exact ⟨fun s hs x hx => absurd hx (List.not_mem_nil x), hdisj⟩

theorem popScope_ok (v : AstVisitor) (top : Scope) (rest : List Scope)
    (hinv : VInv v) (h : v.modStack = top :: rest) :
    ∃ v1, popScope v = some v1 ∧ v1.modStack = rest ∧
      v1.scopeMods = stackMods rest ∧ v1.imports = v.imports ∧
      v1.testImports = v.testImports ∧ v1.hints = v.hints ∧
      (rest ≠ [] → VInv v1) := by
  rw [popScope_eq v top rest h]
  obtain ⟨hne, hsm, hdisj⟩ := hinv
  rw [h] at hdisj
  unfold ScopesDisjoint at hdisj
  rw [List.pairwise_cons] at hdisj
  have hdis2 : ∀ x, x ∈ top.mods.toFinset → x ∈ stackMods rest → False := by
    intro x hx hb
    obtain ⟨t2, ht2, hb2⟩ := mem_stackMods.mp hb
    exact hdisj.1 t2 ht2 x (List.mem_toFinset.mp hx) hb2
  have hscope : v.scopeMods \ top.mods.toFinset = stackMods rest := by
    rw [hsm, h]
    show (top.mods.toFinset ∪ stackMods rest) \ top.mods.toFinset =
      stackMods rest
    ext x
    simp only [Finset.mem_sdiff, Finset.mem_union]
    constructor
    · rintro ⟨hx | hx, hnx⟩
      · exact absurd hx hnx
      · exact hx
    · intro hx
      exact ⟨Or.inr hx, fun hc => hdis2 x hc hx⟩
  refine ⟨_, rfl, rfl, hscope, rfl, rfl, rfl, ?_⟩
  intro hrest
  exact ⟨hrest, hscope, hdisj.2⟩

/-- addMod packaged as a UseOk step. -/
theorem addMod_useOk (v : AstVisitor) (i : Ident) (top : Scope)
    (rest : List Scope) (hinv : VInv v) (h : v.modStack = top :: rest) :
    ∃ v1 e1, addMod v i = some v1 ∧
      v1.modStack = Scope.mk (e1 ++ top.mods) top.isTestOnly :: rest ∧
      UseOk v v1 top rest ∧ v1.scopeMods = insert i v.scopeMods ∧
      v1.imports = v.imports ∧ v1.testImports = v.testImports ∧
      i ∈ v1.scopeMods := by
  obtain ⟨v1, hs, ⟨e1, hst⟩, hsm, himp, htest, hh, hinv1⟩ :=
    addMod_ok v i top rest hinv h
  refine ⟨v1, e1, hs, hst, ⟨hinv1, ⟨e1, hst⟩, by rw [himp], by rw [htest],
          fun _ => himp, hh⟩, hsm, himp, htest, ?_⟩
  rw [hsm]
  exact Finset.mem_insert_self _ _

/-- addImport packaged as a UseOk step (it leaves the stack alone). -/
theorem addImport_useOk (v : AstVisitor) (i : Ident) (top : Scope)
    (rest : List Scope) (hinv : VInv v) (h : v.modStack = top :: rest) :
    ∃ v1, addImport v i = some v1 ∧ v1.modStack = v.modStack ∧
      v1.scopeMods = v.scopeMods ∧ UseOk v v1 top rest ∧
      (i ∉ v.scopeMods → i ≠ "crate" → i ∈ v1.imports ∨ i ∈ v1.testImports) := by
  obtain ⟨v1, hs, hstack, hsm, hh, himp, htest, htonly, hrec, _, _, hinv1⟩ :=
    addImport_ok v i top rest hinv h
  exact ⟨v1, hs, hstack, hsm,
         ⟨hinv1, ⟨[], by rw [hstack]; simpa using h⟩, himp, htest, htonly, hh⟩,
         hrec⟩

/-- The self-detection loop of visit_use_path only declares local names:
it succeeds on a nonempty stack and is a UseOk step. -/
theorem selfScan_ok (items : UseTreeList) :
    ∀ (v : AstVisitor) (ident : Ident) (top : Scope) (rest : List Scope),
      VInv v → v.modStack = top :: rest →
      ∃ v1, selfScan v ident items = some v1 ∧ UseOk v v1 top rest := by
  cases items with
  | nil =>
    intro v ident top rest hinv h
    exact ⟨v, rfl, UseOk_refl hinv h⟩
  | cons head tail =>
    intro v ident top rest hinv h
    cases head with
    | name n =>
      by_cases hn : (n == "self") = true
      · obtain ⟨v1, e1, hs1, hst1, hok1, _, _, _, _⟩ :=
          addMod_useOk v ident top rest hinv h
        obtain ⟨v2, hs2, hok2⟩ :=
          selfScan_ok tail v1 ident (Scope.mk (e1 ++ top.mods) top.isTestOnly)
            rest hok1.1 hst1
        refine ⟨v2, ?_, UseOk_trans hok1 hok2⟩
        simp only [selfScan, hn, if_true, hs1, Option.bind]
        exact hs2
      · obtain ⟨v1, hs1, hok1⟩ := selfScan_ok tail v ident top rest hinv h
        refine ⟨v1, ?_, hok1⟩
        simp only [selfScan, hn, if_false]
        exact hs1
    | path i2 t2 => exact selfScan_ok tail v ident top rest hinv h
    | rename i2 t2 => exact selfScan_ok tail v ident top rest hinv h
    | glob => exact selfScan_ok tail v ident top rest hinv h
    | group g => exact selfScan_ok tail v ident top rest hinv h

mutual
/-- A use-tree visit succeeds on a nonempty stack and is a UseOk step. -/
theorem visitUseTree_ok (t : UseTree) :
    ∀ (v : AstVisitor) (top : Scope) (rest : List Scope),
      VInv v → v.modStack = top :: rest →
      ∃ v1, visitUseTree v t = some v1 ∧ UseOk v v1 top rest := by
  cases t with
  | path ident tree =>
    intro v top rest hinv h
    cases tree with
    | group items =>
      obtain ⟨v1, hs1, hok1⟩ := selfScan_ok items v ident top rest hinv h
      obtain ⟨e1, hst1⟩ := hok1.2.1
      obtain ⟨v2, hs2, hok2⟩ :=
        visitUseTreeList_ok items v1
          (Scope.mk (e1 ++ top.mods) top.isTestOnly) rest hok1.1 hst1
      refine ⟨v2, ?_, UseOk_trans hok1 hok2⟩
      simp only [visitUseTree, hs1, Option.bind]
      exact hs2
    | path i2 t2 =>
      obtain ⟨v2, hs2, hok2⟩ :=
        visitUseTree_ok (UseTree.path i2 t2) v top rest hinv h
      refine ⟨v2, ?_, hok2⟩
      simp only [visitUseTree, Option.bind] at hs2 ⊢
      exact hs2
    | name i2 =>
      obtain ⟨v2, hs2, hok2⟩ := visitUseTree_ok (UseTree.name i2) v top rest hinv h
      refine ⟨v2, ?_, hok2⟩
      simp only [visitUseTree, Option.bind] at hs2 ⊢
      exact hs2
    | rename i2 t2 =>
      obtain ⟨v2, hs2, hok2⟩ :=
        visitUseTree_ok (UseTree.rename i2 t2) v top rest hinv h
      refine ⟨v2, ?_, hok2⟩
      simp only [visitUseTree, Option.bind] at hs2 ⊢
      exact hs2
    | glob =>
      refine ⟨v, ?_, UseOk_refl hinv h⟩
      simp only [visitUseTree, Option.bind]
  | name ident =>
    intro v top rest hinv h
    obtain ⟨v1, e1, hs1, _, hok1, _, _, _, _⟩ :=
      addMod_useOk v ident top rest hinv h
    exact ⟨v1, hs1, hok1⟩
  | rename ident target =>
    intro v top rest hinv h
    obtain ⟨v1, hs1, hstack1, _, hok1, _⟩ :=
      addImport_useOk v ident top rest hinv h
    obtain ⟨v2, e2, hs2, _, hok2, _, _, _, _⟩ :=
      addMod_useOk v1 target top rest hok1.1 (by rw [hstack1]; exact h)
    refine ⟨v2, ?_, @UseOk_trans _ _ _ _ _ [] hok1 hok2⟩
    simp only [visitUseTree, hs1, Option.bind]
    exact hs2
  | glob =>
    intro v top rest hinv h
    exact ⟨v, rfl, UseOk_refl hinv h⟩
  | group items =>
    intro v top rest hinv h
    obtain ⟨v1, hs1, hok1⟩ := visitUseTreeList_ok items v top rest hinv h
    exact ⟨v1, hs1, hok1⟩
/-- Visiting a list of use-trees succeeds and is a UseOk step. -/
theorem visitUseTreeList_ok (ts : UseTreeList) :
    ∀ (v : AstVisitor) (top : Scope) (rest : List Scope),
      VInv v → v.modStack = top :: rest →
      ∃ v1, visitUseTreeList v ts = some v1 ∧ UseOk v v1 top rest := by
  cases ts with
  | nil =>
    intro v top rest hinv h
    exact ⟨v, rfl, UseOk_refl hinv h⟩
  | cons t tail =>
    intro v top rest hinv h
    obtain ⟨v1, hs1, hok1⟩ := visitUseTree_ok t v top rest hinv h
    obtain ⟨e1, hst1⟩ := hok1.2.1
    obtain ⟨v2, hs2, hok2⟩ :=
      visitUseTreeList_ok tail v1 (Scope.mk (e1 ++ top.mods) top.isTestOnly)
        rest hok1.1 hst1
    refine ⟨v2, ?_, UseOk_trans hok1 hok2⟩
    simp only [visitUseTreeList, hs1, Option.bind]
    exact hs2
end

/-- The condition under which one attribute makes the fn-attribute loop
set has_test and the test-only flag: an outer single-segment test
attribute. -/
def isTestAttr (attr : Attr) : Bool :=
  match attr.style, attr.pathSegments with
  | .outer, [name] => name == "test"
  | _, _ => false

/-- The fn-attribute loop never touches has_main. -/
theorem scanFnAttrs_hasMain (attrs : List Attr) :
    ∀ (h : Hints) (t : Bool), ((scanFnAttrs h t attrs).1).hasMain = h.hasMain := by
  induction attrs with
  | nil =>
    intro h t
    rfl
  | cons attr rest ih =>
    intro h t
    rw [scanFnAttrs]
    split
    · split_ifs <;> simp [ih]
    · exact ih h t

/-- The fn-attribute loop never lowers the test-only flag. -/
theorem scanFnAttrs_true (attrs : List Attr) :
    ∀ (h : Hints), (scanFnAttrs h true attrs).2 = true := by
  induction attrs with
  | nil =>
    intro h
    rfl
  | cons attr rest ih =>
    intro h
    rw [scanFnAttrs]
    split
    · split_ifs <;> exact ih _
    · exact ih h

/-- A test attribute anywhere in the list makes the loop return a true
test-only flag. -/
theorem scanFnAttrs_of_testAttr (attrs : List Attr) :
    ∀ (h : Hints) (t : Bool), attrs.any isTestAttr = true →
      (scanFnAttrs h t attrs).2 = true := by
  induction attrs with
  | nil =>
    intro h t hany
    simp at hany
  | cons attr rest ih =>
    intro h t hany
    rw [List.any_cons] at hany
    obtain ⟨style, segs, toks⟩ := attr
    cases style with
    | inner =>
      cases segs with
      | nil =>
        have hr : rest.any isTestAttr = true := by
          rcases Bool.or_eq_true_iff.mp hany with hl | hr2
          · exact absurd hl Bool.false_ne_true
          · exact hr2
        rw [scanFnAttrs]
        exact ih h t hr
      | cons a l =>
        cases l with
        | nil =>
          have hr : rest.any isTestAttr = true := by
            rcases Bool.or_eq_true_iff.mp hany with hl | hr2
            · exact absurd hl Bool.false_ne_true
            · exact hr2
          rw [scanFnAttrs]
          exact ih h t hr
        | cons b m =>
          have hr : rest.any isTestAttr = true := by
            rcases Bool.or_eq_true_iff.mp hany with hl | hr2
            · exact absurd hl Bool.false_ne_true
            · exact hr2
          rw [scanFnAttrs]
          exact ih h t hr
    | outer =>
      cases segs with
      | nil =>
        have hr : rest.any isTestAttr = true := by
          rcases Bool.or_eq_true_iff.mp hany with hl | hr2
          · exact absurd hl Bool.false_ne_true
          · exact hr2
        rw [scanFnAttrs]
        exact ih h t hr
      | cons a l =>
        cases l with
        | cons b m =>
          have hr : rest.any isTestAttr = true := by
            rcases Bool.or_eq_true_iff.mp hany with hl | hr2
            · exact absurd hl Bool.false_ne_true
            · exact hr2
          rw [scanFnAttrs]
          exact ih h t hr
        | nil =>
          rw [scanFnAttrs]
          have goal2 : (if (a == "test") = true then
                scanFnAttrs { h with hasTest := true } true rest
              else if (a == "proc_macro") = true then
                scanFnAttrs { h with hasProcMacro := true } t rest
              else scanFnAttrs h t rest).2 = true := by
            split_ifs with h1 h2
            · exact scanFnAttrs_true rest _
            · refine ih _ _ ?_
              rcases Bool.or_eq_true_iff.mp hany with hl | hr2
              · exact absurd hl h1
              · exact hr2
            · refine ih _ _ ?_
              rcases Bool.or_eq_true_iff.mp hany with hl | hr2
              · exact absurd hl h1
              · exact hr2
          exact goal2

theorem VisitOk_refl {v : AstVisitor} {top : Scope} {rest : List Scope}
    (hinv : VInv v) (h : v.modStack = top :: rest) : VisitOk v v top rest :=
  (UseOk_refl hinv h).toVisitOk

/-- A push-visit-pop bracket: if the middle step satisfies the VisitOk
contract, the bracket succeeds, restores the stack and the shadow set,
only grows the buckets, leaves the normal bucket alone under a test-only
flag, and preserves has_main. -/
theorem scoped_ok (f : AstVisitor → Option AstVisitor) (t : Bool)
    (v : AstVisitor) (top : Scope) (rest : List Scope)
    (hinv : VInv v) (h : v.modStack = top :: rest)
    (hf : ∀ w topw restw, VInv w → w.modStack = topw :: restw →
      ∃ w1, f w = some w1 ∧ VisitOk w w1 topw restw) :
    ∃ v3, ((pushScope v t).bind fun v1 =>
            (f v1).bind fun v2 => popScope v2) = some v3 ∧
      v3.modStack = top :: rest ∧ v3.scopeMods = v.scopeMods ∧
      v.imports ⊆ v3.imports ∧ v.testImports ⊆ v3.testImports ∧
      ((t || top.isTestOnly) = true → v3.imports = v.imports) ∧
      v3.hints.hasMain = v.hints.hasMain ∧ VInv v3 := by
  obtain ⟨v1, hs1, hst1, hsm1, himp1, htest1, hh1, hinv1⟩ :=
    pushScope_ok v t top rest hinv h
  obtain ⟨v2, hs2, hok2⟩ :=
    hf v1 (Scope.mk [] (t || top.isTestOnly)) (top :: rest) hinv1 hst1
  obtain ⟨hinv2, ⟨e2, hst2⟩, himp2, htest2, htonly2, hm2, _⟩ := hok2
  obtain ⟨v3, hs3, hst3, hsm3, himp3, htest3, hh3, hinv3⟩ :=
    popScope_ok v2 (Scope.mk (e2 ++ []) (t || top.isTestOnly)) (top :: rest)
      hinv2 hst2
  refine ⟨v3, ?_, hst3, ?_, ?_, ?_, ?_, ?_, hinv3 (List.cons_ne_nil _ _)⟩
  · simp only [hs1, Option.bind, hs2, hs3]
  · rw [hsm3, ← h]
    exact hinv.2.1.symm
  · rw [himp3, ← himp1]
    exact himp2
  · rw [htest3, ← htest1]
    exact htest2
  · intro ht
    rw [himp3, htonly2 ht, himp1]
  · rw [hh3, hm2 (List.cons_ne_nil _ _), hh1]

mutual
/-- A node visit succeeds on a nonempty stack and is a VisitOk step. -/
theorem visitNode_ok (n : Node) :
    ∀ (v : AstVisitor) (top : Scope) (rest : List Scope),
      VInv v → v.modStack = top :: rest →
      ∃ v1, visitNode v n = some v1 ∧ VisitOk v v1 top rest := by
  cases n with
  | itemUse tree =>
    intro v top rest hinv h
    cases tree with
    | path ident tree2 =>
      obtain ⟨v1, hs1, hstack1, _, hok1, _⟩ :=
        addImport_useOk v ident top rest hinv h
      obtain ⟨v2, hs2, hok2⟩ :=
        visitUseTree_ok (UseTree.path ident tree2) v1 top rest hok1.1
          (by rw [hstack1]; exact h)
      refine ⟨v2, ?_, (@UseOk_trans _ _ _ _ _ [] hok1 hok2).toVisitOk⟩
      simp only [visitNode, hs1, Option.bind]
      exact hs2
    | name ident =>
      obtain ⟨v1, hs1, hstack1, _, hok1, _⟩ :=
        addImport_useOk v ident top rest hinv h
      obtain ⟨v2, hs2, hok2⟩ :=
        visitUseTree_ok (UseTree.name ident) v1 top rest hok1.1
          (by rw [hstack1]; exact h)
      refine ⟨v2, ?_, (@UseOk_trans _ _ _ _ _ [] hok1 hok2).toVisitOk⟩
      simp only [visitNode, hs1, Option.bind]
      exact hs2
    | rename i2 t2 =>
      obtain ⟨v2, hs2, hok2⟩ :=
        visitUseTree_ok (UseTree.rename i2 t2) v top rest hinv h
      refine ⟨v2, ?_, hok2.toVisitOk⟩
      simp only [visitNode, Option.bind]
      exact hs2
    | glob =>
      refine ⟨v, ?_, VisitOk_refl hinv h⟩
      simp only [visitNode, Option.bind, visitUseTree]
    | group items =>
      obtain ⟨v2, hs2, hok2⟩ :=
        visitUseTree_ok (UseTree.group items) v top rest hinv h
      refine ⟨v2, ?_, hok2.toVisitOk⟩
      simp only [visitNode, Option.bind]
      simp only [visitUseTree] at hs2
      exact hs2
  | itemExternCrate ident =>
    intro v top rest hinv h
    obtain ⟨v1, hs1, _, _, hok1, _⟩ := addImport_useOk v ident top rest hinv h
    refine ⟨v1, ?_, hok1.toVisitOk⟩
    simp only [visitNode]
    exact hs1
  | itemMod attrs ident content =>
    intro v top rest hinv h
    obtain ⟨v1, e1, hs1, hst1, hok1, hsm1, himp1, htest1, hmem1⟩ :=
      addMod_useOk v ident top rest hinv h
    obtain ⟨hinv1, _, _, _, _, hh1⟩ := hok1
    obtain ⟨v3, hsC, hstC, hsmC, himpC, htestC, htonlyC, hmC, hinvC⟩ :=
      scoped_ok (fun w => visitNodes w content) (attrs.any isCfgTest) v1
        (Scope.mk (e1 ++ top.mods) top.isTestOnly) rest hinv1 hst1
        (fun w topw restw hw hsw => visitNodes_ok content w topw restw hw hsw)
    refine ⟨v3, ?_, hinvC, ⟨e1, hstC⟩, ?_, ?_, ?_, ?_, ?_⟩
    · simp only [visitNode, hs1, Option.bind]
      exact hsC
    · rw [← himp1]
      exact himpC
    · rw [← htest1]
      exact htestC
    · intro ht
      have hb : (attrs.any isCfgTest ||
          (Scope.mk (e1 ++ top.mods) top.isTestOnly).isTestOnly) = true := by
        show (attrs.any isCfgTest || top.isTestOnly) = true
        rw [ht]
        exact Bool.or_true _
      rw [htonlyC hb, himp1]
    · intro _
      rw [hmC, hh1]
    · intro hm
      rw [hmC, hh1]
      exact hm
  | itemFn attrs ident body =>
    intro v top rest hinv h
    have hfInner : ∀ w topw restw, VInv w → w.modStack = topw :: restw →
        ∃ w1, ((pushScope w false).bind fun v2 =>
                (visitNodes v2 body).bind fun v3 => popScope v3) = some w1 ∧
          VisitOk w w1 topw restw := by
      intro w topw restw hw hsw
      obtain ⟨w1, hsI, hstI, hsmI, himpI, htestI, htonlyI, hmI, hinvI⟩ :=
        scoped_ok (fun z => visitNodes z body) false w topw restw hw hsw
          (fun z tz rz hz hsz => visitNodes_ok body z tz rz hz hsz)
      refine ⟨w1, hsI, hinvI, ⟨[], by rw [hstI]; rfl⟩, himpI, htestI, ?_,
              fun _ => hmI, fun hm => by rw [hmI]; exact hm⟩
      intro ht
      refine htonlyI ?_
      rw [ht]
      rfl
    by_cases hroot : (isRootScope v && (ident == "main")) = true
    · have hrest : rest = [] := by
        have hpair : isRootScope v = true ∧ (ident == "main") = true := by
          simpa using hroot
        have hlen := hpair.1
        rw [isRootScope, h] at hlen
        simpa using hlen
      obtain ⟨v5, hsO, hstO, hsmO, himpO, htestO, htonlyO, hmO, hinvO⟩ :=
        scoped_ok (fun v1 => (pushScope v1 false).bind fun v2 =>
            (visitNodes v2 body).bind fun v3 => popScope v3)
          false { v with hints := { v.hints with hasMain := true } } top rest
          (VInv_mk v _ rfl rfl hinv) h hfInner
      refine ⟨v5, ?_, hinvO, ⟨[], by rw [hstO]; rfl⟩, himpO, htestO, ?_, ?_, ?_⟩
      · simp only [visitNode]
        rw [if_pos hroot]
        exact hsO
      · intro ht
        refine htonlyO ?_
        rw [ht]
        rfl
      · intro hr
        exact absurd hrest hr
      · intro _
        exact hmO
    · obtain ⟨v5, hsO, hstO, hsmO, himpO, htestO, htonlyO, hmO, hinvO⟩ :=
        scoped_ok (fun v1 => (pushScope v1 false).bind fun v2 =>
            (visitNodes v2 body).bind fun v3 => popScope v3)
          (scanFnAttrs v.hints false attrs).2
          { v with hints := (scanFnAttrs v.hints false attrs).1 } top rest
          (VInv_mk v _ rfl rfl hinv) h hfInner
      have hwm : ((scanFnAttrs v.hints false attrs).1).hasMain =
          v.hints.hasMain := scanFnAttrs_hasMain attrs v.hints false
      refine ⟨v5, ?_, hinvO, ⟨[], by rw [hstO]; rfl⟩, himpO, htestO, ?_, ?_, ?_⟩
      · simp only [visitNode]
        rw [if_neg hroot]
        exact hsO
      · intro ht
        refine htonlyO ?_
        rw [ht]
        exact Bool.or_true _
      · intro _
        rw [hmO]
        exact hwm
      · intro hm
        rw [hmO]
        rw [show ({ v with hints := (scanFnAttrs v.hints false attrs).1 }
          : AstVisitor).hints.hasMain = v.hints.hasMain from hwm]
        exact hm
  | block stmts =>
    intro v top rest hinv h
    obtain ⟨v3, hsC, hstC, hsmC, himpC, htestC, htonlyC, hmC, hinvC⟩ :=
      scoped_ok (fun w => visitNodes w stmts) false v top rest hinv h
        (fun w topw restw hw hsw => visitNodes_ok stmts w topw restw hw hsw)
    refine ⟨v3, ?_, hinvC, ⟨[], by rw [hstC]; rfl⟩, himpC, htestC, ?_,
            fun _ => hmC, fun hm => by rw [hmC]; exact hm⟩
    · simp only [visitNode]
      exact hsC
    · intro ht
      refine htonlyC ?_
      rw [ht]
      rfl
  | pathExpr segments =>
    intro v top rest hinv h
    cases segments with
    | nil =>
      exact ⟨v, rfl, VisitOk_refl hinv h⟩
    | cons s0 tail =>
      cases tail with
      | nil => exact ⟨v, rfl, VisitOk_refl hinv h⟩
      | cons s1 tail2 =>
        obtain ⟨v1, hs1, _, _, hok1, _⟩ := addImport_useOk v s0 top rest hinv h
        refine ⟨v1, ?_, hok1.toVisitOk⟩
        simp only [visitNode]
        exact hs1
  | other children =>
    intro v top rest hinv h
    obtain ⟨v1, hs1, hok1⟩ := visitNodes_ok children v top rest hinv h
    refine ⟨v1, ?_, hok1⟩
    simp only [visitNode]
    exact hs1
/-- Visiting a list of nodes succeeds on a nonempty stack and is a VisitOk
step. -/
theorem visitNodes_ok (ns : NodeList) :
    ∀ (v : AstVisitor) (top : Scope) (rest : List Scope),
      VInv v → v.modStack = top :: rest →
      ∃ v1, visitNodes v ns = some v1 ∧ VisitOk v v1 top rest := by
  cases ns with
  | nil =>
    intro v top rest hinv h
    exact ⟨v, rfl, VisitOk_refl hinv h⟩
  | cons n tail =>
    intro v top rest hinv h
    obtain ⟨v1, hs1, hok1⟩ := visitNode_ok n v top rest hinv h
    obtain ⟨e1, hst1⟩ := hok1.2.1
    obtain ⟨v2, hs2, hok2⟩ :=
      visitNodes_ok tail v1 (Scope.mk (e1 ++ top.mods) top.isTestOnly) rest
        hok1.1 hst1
    refine ⟨v2, ?_, VisitOk_trans hok1 hok2⟩
    simp only [visitNodes, hs1, Option.bind]
    exact hs2
end

/-!
## Helper corollaries for the claims
-/

/-- The fn-body bracket (the second push of visit_item_fn plus the body
visit and its pop) satisfies the VisitOk contract. -/
theorem fnBody_ok (body : NodeList) :
    ∀ (w : AstVisitor) (topw : Scope) (restw : List Scope),
      VInv w → w.modStack = topw :: restw →
      ∃ w1, ((pushScope w false).bind fun v2 =>
              (visitNodes v2 body).bind fun v3 => popScope v3) = some w1 ∧
        VisitOk w w1 topw restw := by
  intro w topw restw hw hsw
  obtain ⟨w1, hsI, hstI, hsmI, himpI, htestI, htonlyI, hmI, hinvI⟩ :=
    scoped_ok (fun z => visitNodes z body) false w topw restw hw hsw
      (fun z tz rz hz hsz => visitNodes_ok body z tz rz hz hsz)
  refine ⟨w1, hsI, hinvI, ⟨[], by rw [hstI]; rfl⟩, himpI, htestI, ?_,
          fun _ => hmI, fun hm => by rw [hmI]; exact hm⟩
  intro ht
  refine htonlyI ?_
  rw [ht]
  rfl

/-- Visiting a mod item: it succeeds, never touches has_main, and under a
cfg(test) marker or an already test-only scope leaves the normal bucket
alone. -/
theorem itemMod_visit (attrs : List Attr) (ident : Ident) (content : NodeList)
    (v : AstVisitor) (top : Scope) (rest : List Scope)
    (hinv : VInv v) (h : v.modStack = top :: rest) :
    ∃ v3, visitNode v (.itemMod attrs ident content) = some v3 ∧
      v3.hints.hasMain = v.hints.hasMain ∧
      ((attrs.any isCfgTest || top.isTestOnly) = true →
        v3.imports = v.imports) := by
  obtain ⟨v1, e1, hs1, hst1, hok1, hsm1, himp1, htest1, hmem1⟩ :=
    addMod_useOk v ident top rest hinv h
  obtain ⟨hinv1, _, _, _, _, hh1⟩ := hok1
  obtain ⟨v3, hsC, hstC, hsmC, himpC, htestC, htonlyC, hmC, hinvC⟩ :=
    scoped_ok (fun w => visitNodes w content) (attrs.any isCfgTest) v1
      (Scope.mk (e1 ++ top.mods) top.isTestOnly) rest hinv1 hst1
      (fun w topw restw hw hsw => visitNodes_ok content w topw restw hw hsw)
  refine ⟨v3, ?_, ?_, ?_⟩
  · simp only [visitNode, hs1, Option.bind]
    exact hsC
  · rw [hmC, hh1]
  · intro hb
    have hb2 : (attrs.any isCfgTest ||
        (Scope.mk (e1 ++ top.mods) top.isTestOnly).isTestOnly) = true := hb
    rw [htonlyC hb2, himp1]

/-- Visiting a block never touches has_main. -/
theorem block_visit (stmts : NodeList) (v : AstVisitor) (top : Scope)
    (rest : List Scope) (hinv : VInv v) (h : v.modStack = top :: rest) :
    ∃ v3, visitNode v (.block stmts) = some v3 ∧
      v3.hints.hasMain = v.hints.hasMain := by
  obtain ⟨v3, hsC, _, _, _, _, _, hmC, _⟩ :=
    scoped_ok (fun w => visitNodes w stmts) false v top rest hinv h
      (fun w tw rw2 hw hsw => visitNodes_ok stmts w tw rw2 hw hsw)
  refine ⟨v3, ?_, hmC⟩
  simp only [visitNode]
  exact hsC

/-- Visiting a fn named main when the stack is at the root sets has_main. -/
theorem itemFn_main_visit (attrs : List Attr) (body : NodeList)
    (v : AstVisitor) (top : Scope) (hinv : VInv v) (h : v.modStack = [top]) :
    ∃ v5, visitNode v (.itemFn attrs "main" body) = some v5 ∧
      v5.hints.hasMain = true := by
  have hroot : (isRootScope v && ("main" == "main")) = true := by
    rw [isRootScope, h]
    rfl
  obtain ⟨v5, hsO, hstO, hsmO, himpO, htestO, htonlyO, hmO, hinvO⟩ :=
    scoped_ok (fun v1 => (pushScope v1 false).bind fun v2 =>
        (visitNodes v2 body).bind fun v3 => popScope v3)
      false { v with hints := { v.hints with hasMain := true } } top []
      (VInv_mk v _ rfl rfl hinv) h (fnBody_ok body)
  refine ⟨v5, ?_, hmO⟩
  simp only [visitNode]
  rw [if_pos hroot]
  exact hsO

/-- Visiting a fn that does not take the root-main branch: has_main is
preserved, and when the attribute scan yields a test flag (or the scope is
already test-only) the normal bucket is left alone. -/
theorem itemFn_nonmain_visit (attrs : List Attr) (ident : Ident)
    (body : NodeList) (v : AstVisitor) (top : Scope) (rest : List Scope)
    (hinv : VInv v) (h : v.modStack = top :: rest)
    (hcond : ¬((isRootScope v && (ident == "main")) = true)) :
    ∃ v5, visitNode v (.itemFn attrs ident body) = some v5 ∧
      v5.hints.hasMain = v.hints.hasMain ∧
      (((scanFnAttrs v.hints false attrs).2 || top.isTestOnly) = true →
        v5.imports = v.imports) := by
  obtain ⟨v5, hsO, hstO, hsmO, himpO, htestO, htonlyO, hmO, hinvO⟩ :=
    scoped_ok (fun v1 => (pushScope v1 false).bind fun v2 =>
        (visitNodes v2 body).bind fun v3 => popScope v3)
      (scanFnAttrs v.hints false attrs).2
      { v with hints := (scanFnAttrs v.hints false attrs).1 } top rest
      (VInv_mk v _ rfl rfl hinv) h (fnBody_ok body)
  refine ⟨v5, ?_, ?_, ?_⟩
  · simp only [visitNode]
    rw [if_neg hcond]
    exact hsO
  · rw [hmO]
    exact scanFnAttrs_hasMain attrs v.hints false
  · intro hb
    exact htonlyO hb

/-!
## The claims
-/

/-- C2: test-only classification is monotonic down the scope stack: a
pushed frame's effective flag is its own marker OR the parent frame's
flag; with a test-only top frame no node visit ever touches the normal
bucket (every recorded reference goes to the test-only bucket); and in
particular visiting a #[cfg(test)]-marked mod or a #[test]-marked fn
(not the root main) leaves the normal bucket unchanged however deep the
nesting inside it. -/
theorem claim_C2_test_only_monotonic :
    (∀ (v : AstVisitor) (t : Bool) (top : Scope) (rest : List Scope),
       v.modStack = top :: rest →
       pushScope v t = some { v with
         modStack := Scope.mk [] (t || top.isTestOnly) :: top :: rest }) ∧
    (∀ (n : Node) (v v1 : AstVisitor) (top : Scope) (rest : List Scope),
       VInv v → v.modStack = top :: rest → top.isTestOnly = true →
       visitNode v n = some v1 → v1.imports = v.imports) ∧
    (∀ (attrs : List Attr) (name : Ident) (content : NodeList)
       (v v1 : AstVisitor) (top : Scope) (rest : List Scope),
       VInv v → v.modStack = top :: rest → attrs.any isCfgTest = true →
       visitNode v (.itemMod attrs name content) = some v1 →
       v1.imports = v.imports) ∧
    (∀ (attrs : List Attr) (name : Ident) (body : NodeList)
       (v v1 : AstVisitor) (top : Scope) (rest : List Scope),
       VInv v → v.modStack = top :: rest → attrs.any isTestAttr = true →
       (name == "main") = false →
       visitNode v (.itemFn attrs name body) = some v1 →
       v1.imports = v.imports) := by
  refine ⟨?_, ?_, ?_, ?_⟩
  · intro v t top rest h
    exact pushScope_eq v t top rest h
  · intro n v v1 top rest hinv h htop hvisit
    obtain ⟨v2, hs2, hok2⟩ := visitNode_ok n v top rest hinv h
    rw [hvisit] at hs2
    injection hs2 with he
    subst he
    exact hok2.2.2.2.2.1 htop
  · intro attrs name content v v1 top rest hinv h hcfg hvisit
    obtain ⟨v3, hs3, _, htonly⟩ :=
      itemMod_visit attrs name content v top rest hinv h
    rw [hvisit] at hs3
    injection hs3 with he
    subst he
    refine htonly ?_
    rw [hcfg]
    exact Bool.true_or _
  · intro attrs name body v v1 top rest hinv h htestattr hname hvisit
    have hcond : ¬((isRootScope v && (name == "main")) = true) := by
      intro hc
      rw [hname] at hc
      simp at hc
    obtain ⟨v5, hs5, _, htonly⟩ :=
      itemFn_nonmain_visit attrs name body v top rest hinv h hcond
    rw [hvisit] at hs5
    injection hs5 with he
    subst he
    refine htonly ?_
    rw [scanFnAttrs_of_testAttr attrs v.hints false htestattr]
    exact Bool.true_or _

/-- C4: a qualified path in expression or type position classifies
exactly its first segment as a reference when it has more than one
segment (the visit is literally an add_import of the first segment,
independent of the remaining segments) and classifies nothing on a
single-segment or empty path; and add_import on an unshadowed,
non-keyword name records it in one of the two buckets. -/
theorem claim_C4_path_first_segment :
    (∀ (v : AstVisitor) (s0 s1 : Ident) (ss : List Ident),
       visitNode v (.pathExpr (s0 :: s1 :: ss)) = addImport v s0) ∧
    (∀ (v : AstVisitor) (s : Ident), visitNode v (.pathExpr [s]) = some v) ∧
    (∀ (v : AstVisitor), visitNode v (.pathExpr []) = some v) ∧
    (∀ (v : AstVisitor) (i : Ident) (top : Scope) (rest : List Scope),
       VInv v → v.modStack = top :: rest → i ∉ v.scopeMods → i ≠ "crate" →
       ∃ v1, addImport v i = some v1 ∧
         (i ∈ v1.imports ∨ i ∈ v1.testImports)) := by
  refine ⟨fun v s0 s1 ss => rfl, fun v s => rfl, fun v => rfl, ?_⟩
  intro v i top rest hinv h hsh hcr
  obtain ⟨v1, hs, _, _, _, _, _, _, hrec, _, _, _⟩ :=
    addImport_ok v i top rest hinv h
  exact ⟨v1, hs, hrec hsh hcr⟩

/-- C5: pop removes from the shadow set exactly the names the popped
frame introduced: the new shadow set is the old one minus the popped
frame's local list, names of still-open outer frames remain shadowed,
and any name no longer shadowed (and not the crate keyword) is recorded
again as a fresh external reference by the next add_import. -/
theorem claim_C5_pop_exact_shadow_removal :
    ∀ (v : AstVisitor) (top : Scope) (rest : List Scope),
      VInv v → v.modStack = top :: rest → rest ≠ [] →
      ∃ v1, popScope v = some v1 ∧ v1.modStack = rest ∧
        v1.scopeMods = v.scopeMods \ top.mods.toFinset ∧
        (∀ x ∈ top.mods, x ∉ v1.scopeMods) ∧
        (∀ s ∈ rest, ∀ x ∈ s.mods, x ∈ v1.scopeMods) ∧
        (∀ x, x ∉ v1.scopeMods → x ≠ "crate" →
          ∃ v2, addImport v1 x = some v2 ∧
            (x ∈ v2.imports ∨ x ∈ v2.testImports)) := by
  intro v top rest hinv h hrest
  obtain ⟨v1, hs, hstk, hsm, himp, htest, hh, hvin⟩ :=
    popScope_ok v top rest hinv h
  have hinv1 := hvin hrest
  have hsd : v1.scopeMods = v.scopeMods \ top.mods.toFinset := by
    have hs2 := hs
    rw [popScope_eq v top rest h] at hs2
    injection hs2 with he
    rw [← he]
  refine ⟨v1, hs, hstk, hsd, ?_, ?_, ?_⟩
  · intro x hx hmem
    rw [hsd] at hmem
    exact (Finset.mem_sdiff.mp hmem).2 (List.mem_toFinset.mpr hx)
  · intro s hsin x hx
    rw [hsm]
    exact mem_stackMods.mpr ⟨s, hsin, hx⟩
  · intro x hx hcrate
    rcases hr : rest with _ | ⟨r, rtail⟩
    · exact absurd hr hrest
    · have hst1 : v1.modStack = r :: rtail := by rw [hstk, hr]
      obtain ⟨v2, hs2, _, _, _, _, _, _, hrec, _, _, _⟩ :=
        addImport_ok v1 x r rtail hinv1 hst1
      exact ⟨v2, hs2, hrec hx hcrate⟩

/-- C6: from the initial state (root frame only) the whole traversal of
any syntax tree succeeds (a some result; a none would be the fatal
empty-stack pop) and returns to depth one, the root frame never popped;
and any single node visit from a nonempty stack succeeds and restores the
entry depth, with a nonempty stack on exit. -/
theorem claim_C6_stack_balance :
    (∀ (ns : NodeList), ∃ v1, visitNodes initialVisitor ns = some v1 ∧
       v1.modStack.length = 1) ∧
    (∀ (n : Node) (v : AstVisitor) (top : Scope) (rest : List Scope),
       VInv v → v.modStack = top :: rest →
       ∃ v1, visitNode v n = some v1 ∧
         v1.modStack.length = v.modStack.length ∧ v1.modStack ≠ []) := by
  constructor
  · intro ns
    obtain ⟨v1, hs, hok⟩ :=
      visitNodes_ok ns initialVisitor ⟨[], false⟩ [] initialVisitor_inv rfl
    obtain ⟨e, hst⟩ := hok.2.1
    exact ⟨v1, hs, by rw [hst]; rfl⟩
  · intro n v top rest hinv h
    obtain ⟨v1, hs, hok⟩ := visitNode_ok n v top rest hinv h
    obtain ⟨e, hst⟩ := hok.2.1
    refine ⟨v1, hs, ?_, ?_⟩
    · rw [hst, h]
      rfl
    · rw [hst]
      exact List.cons_ne_nil _ _

/-- C7: a fn item named main visited while the scope stack is at the
root (exactly one frame) sets has_main; visiting a mod item or a block
never changes has_main (so a main nested anywhere below never sets
it). -/
theorem claim_C7_has_main_root_only :
    (∀ (v : AstVisitor) (attrs : List Attr) (body : NodeList) (top : Scope),
       VInv v → v.modStack = [top] →
       ∃ v1, visitNode v (.itemFn attrs "main" body) = some v1 ∧
         v1.hints.hasMain = true) ∧
    (∀ (v v1 : AstVisitor) (attrs : List Attr) (name : Ident)
       (content : NodeList), VInv v →
       visitNode v (.itemMod attrs name content) = some v1 →
       v1.hints.hasMain = v.hints.hasMain) ∧
    (∀ (v v1 : AstVisitor) (stmts : NodeList), VInv v →
       visitNode v (.block stmts) = some v1 →
       v1.hints.hasMain = v.hints.hasMain) := by
  refine ⟨?_, ?_, ?_⟩
  · intro v attrs body top hinv h
    exact itemFn_main_visit attrs body v top hinv h
  · intro v v1 attrs name content hinv hvisit
    rcases hstk : v.modStack with _ | ⟨top, rest⟩
    · exact absurd hstk hinv.1
    · obtain ⟨v3, hs3, hm3, _⟩ :=
        itemMod_visit attrs name content v top rest hinv hstk
      rw [hvisit] at hs3
      injection hs3 with he
      subst he
      exact hm3
  · intro v v1 stmts hinv hvisit
    rcases hstk : v.modStack with _ | ⟨top, rest⟩
    · exact absurd hstk hinv.1
    · obtain ⟨v3, hs3, hm3⟩ := block_visit stmts v top rest hinv hstk
      rw [hvisit] at hs3
      injection hs3 with he
      subst he
      exact hm3

/-- C1 counterexample: visiting the plain name import use x does add x to
the shadow set (scope_mods), contradicting the claim that no local
declaration is introduced; and the plain name b inside the grouped import
use a::{b} is declared local and is not classified as a reference. -/
theorem claim_C1_counterexample :
    (∃ v1, visitNode initialVisitor (.itemUse (.name "x")) = some v1 ∧
       "x" ∈ v1.scopeMods) ∧
    (∃ v1, visitNode initialVisitor
        (.itemUse (.path "a" (.group (.cons (.name "b") .nil)))) = some v1 ∧
       "b" ∈ v1.scopeMods ∧ "b" ∉ v1.imports ∧ "b" ∉ v1.testImports) :=
  ⟨⟨_, rfl, by decide⟩, ⟨_, rfl, by decide, by decide, by decide⟩⟩

/-- C1 amended: a top-level plain name import use x classifies x as a
reference AND declares x as a local name (x is added to the shadow set
and to the current frame's local list); a plain name inside a grouped
use item is only declared as a local name, not classified as a
reference. -/
theorem claim_C1_amended_plain_name :
    (∀ (v : AstVisitor) (x : Ident) (top : Scope) (rest : List Scope),
       VInv v → v.modStack = top :: rest → x ∉ v.scopeMods → x ≠ "crate" →
       ∃ v1, visitNode v (.itemUse (.name x)) = some v1 ∧
         (x ∈ v1.imports ∨ x ∈ v1.testImports) ∧ x ∈ v1.scopeMods ∧
         ∃ top1, v1.modStack = top1 :: rest ∧ x ∈ top1.mods) ∧
    (∀ (v : AstVisitor) (a b : Ident) (top : Scope) (rest : List Scope),
       VInv v → v.modStack = top :: rest →
       b ∉ v.scopeMods → b ∉ v.imports → b ∉ v.testImports →
       (b == "self") = false → b ≠ a →
       ∃ v1, visitNode v
           (.itemUse (.path a (.group (.cons (.name b) .nil)))) = some v1 ∧
         b ∈ v1.scopeMods ∧ b ∉ v1.imports ∧ b ∉ v1.testImports) := by
  constructor
  · intro v x top rest hinv h hsh hcr
    obtain ⟨v1, hs1, hstack1, hsm1, hh1, _, _, _, hrec, _, _, hinv1⟩ :=
      addImport_ok v x top rest hinv h
    have hrecv := hrec hsh hcr
    have hx1 : x ∉ v1.scopeMods := by rw [hsm1]; exact hsh
    have hst1 : v1.modStack = top :: rest := by rw [hstack1]; exact h
    refine ⟨{ v1 with scopeMods := insert x v1.scopeMods, modStack := ⟨x :: top.mods, top.isTestOnly⟩ :: rest }, ?_, ?_, ?_, ?_⟩
    · simp only [visitNode, hs1, Option.bind, visitUseTree]
      rw [addMod_eq v1 x top rest hst1, if_neg hx1]
    · exact hrecv
    · exact Finset.mem_insert_self _ _
    · exact ⟨⟨x :: top.mods, top.isTestOnly⟩, rfl, List.mem_cons_self x top.mods⟩
  · intro v a b top rest hinv h hbsh hbi hbt hbself hba
    obtain ⟨v1, hs1, hstack1, hsm1, hh1, _, _, _, _, himpub1, htestub1, hinv1⟩ :=
      addImport_ok v a top rest hinv h
    have hb1 : b ∉ v1.scopeMods := by rw [hsm1]; exact hbsh
    have hst1 : v1.modStack = top :: rest := by rw [hstack1]; exact h
    have hbi1 : b ∉ v1.imports := by
      intro hc
      rcases Finset.mem_insert.mp (himpub1 hc) with hc2 | hc2
      · exact hba hc2
      · exact hbi hc2
    have hbt1 : b ∉ v1.testImports := by
      intro hc
      rcases Finset.mem_insert.mp (htestub1 hc) with hc2 | hc2
      · exact hba hc2
      · exact hbt hc2
    refine ⟨{ v1 with scopeMods := insert b v1.scopeMods, modStack := ⟨b :: top.mods, top.isTestOnly⟩ :: rest }, ?_, ?_, ?_, ?_⟩
    · simp only [visitNode, hs1, Option.bind, visitUseTree, selfScan, hbself,
        Bool.false_eq_true, if_false, visitUseTreeList]
      rw [addMod_eq v1 b top rest hst1, if_neg hb1]
    · exact Finset.mem_insert_self _ _
    · exact hbi1
    · exact hbt1

/-- C3: the test-only output is the filtered set difference of the
accumulated test bucket minus the accumulated normal bucket, and any
identifier recorded in both buckets is excluded from the test-only
output and (when lowercase-leading) appears in the normal output. -/
theorem claim_C3_test_output_difference :
    ∀ (ns : NodeList) (v : AstVisitor) (r : RustImports),
      visitNodes initialVisitor ns = some v → analyzeAst ns = some r →
      r.testImports = filterImports (v.testImports \ v.imports) ∧
      (∀ x, x ∈ v.imports → x ∈ v.testImports →
        x ∉ r.testImports ∧ (firstCharLowercase x = true → x ∈ r.imports)) := by
  intro ns v r hv hr
  have hr2 : r = ⟨v.hints, filterImports v.imports,
      filterImports (v.testImports \ v.imports)⟩ := by
    unfold analyzeAst at hr
    rw [hv] at hr
    injection hr with he
    exact he.symm
  subst hr2
  refine ⟨rfl, ?_⟩
  intro x hxi hxt
  constructor
  · intro hmem
    have hx2 := (Finset.mem_filter.mp hmem).1
    exact (Finset.mem_sdiff.mp hx2).2 hxi
  · intro hlow
    exact Finset.mem_filter.mpr ⟨hxi, hlow⟩

/-- C8: membership in a filtered output is membership in the input set
together with a lowercase-leading first character; and no identifier
whose first character is not lowercase ever appears in either final
output of the analysis. -/
theorem claim_C8_lowercase_filter :
    (∀ (s : Finset Ident) (x : Ident),
       x ∈ filterImports s ↔ x ∈ s ∧ firstCharLowercase x = true) ∧
    (∀ (ns : NodeList) (r : RustImports) (x : Ident),
       analyzeAst ns = some r → firstCharLowercase x = false →
       x ∉ r.imports ∧ x ∉ r.testImports) := by
  constructor
  · intro s x
    exact Finset.mem_filter
  · intro ns r x hr hup
    rcases hv : visitNodes initialVisitor ns with _ | v
    · unfold analyzeAst at hr
      rw [hv] at hr
      exact Option.noConfusion hr
    · have hr2 : r = ⟨v.hints, filterImports v.imports,
          filterImports (v.testImports \ v.imports)⟩ := by
        unfold analyzeAst at hr
        rw [hv] at hr
        injection hr with he
        exact he.symm
      subst hr2
      constructor
      · intro hmem
        have hl := (Finset.mem_filter.mp hmem).2
        rw [hup] at hl
        exact Bool.false_ne_true hl
      · intro hmem
        have hl := (Finset.mem_filter.mp hmem).2
        rw [hup] at hl
        exact Bool.false_ne_true hl

/-- C9 counterexample: on a file-open failure parse_imports calls
std::process::exit(1): the outcome is a process exit, which aborts any
same-process analysis of other files, so the failure is not fatal only
for that file. -/
theorem claim_C9_counterexample :
    parseImports (Except.error "No such file or directory") (Except.ok "")
      (fun _ => Except.ok NodeList.nil) = ParseOutcome.exited 1 ∧
    abortsProcess (parseImports (Except.error "No such file or directory")
      (Except.ok "") (fun _ => Except.ok NodeList.nil)) = true :=
  ⟨rfl, rfl⟩

/-- C9 amended: when opening the input file fails, no output is produced
for that file, and the whole process terminates with exit code 1 (the
error is printed, not returned to the caller), so a same-process
orchestration of other files is aborted. -/
theorem claim_C9_amended_open_failure_exits :
    ∀ (e : String) (readResult : Except String String)
      (p : String → Except String NodeList),
      parseImports (Except.error e) readResult p = ParseOutcome.exited 1 ∧
      abortsProcess (parseImports (Except.error e) readResult p) = true ∧
      ∀ r, parseImports (Except.error e) readResult p ≠ ParseOutcome.ok r := by
  intro e readResult p
  refine ⟨rfl, rfl, ?_⟩
  intro r hc
  exact ParseOutcome.noConfusion hc

/-- C10: visiting use a::b as c classifies b as a reference in addition
to a (b lands in one of the buckets when unshadowed and not the crate
keyword) and declares exactly the rename target c as a local name;
buckets only grow during any later visit; and any recorded
lowercase-leading identifier appears in one of the two final outputs. -/
theorem claim_C10_rename_classifies_original :
    (∀ (v : AstVisitor) (a b c : Ident) (top : Scope) (rest : List Scope),
       VInv v → v.modStack = top :: rest → b ∉ v.scopeMods → b ≠ "crate" →
       ∃ v1, visitNode v (.itemUse (.path a (.rename b c))) = some v1 ∧
         (b ∈ v1.imports ∨ b ∈ v1.testImports) ∧
         v1.scopeMods = insert c v.scopeMods) ∧
    (∀ (n : Node) (v v1 : AstVisitor) (top : Scope) (rest : List Scope),
       VInv v → v.modStack = top :: rest → visitNode v n = some v1 →
       v.imports ⊆ v1.imports ∧ v.testImports ⊆ v1.testImports) ∧
    (∀ (v : AstVisitor) (b : Ident),
       (b ∈ v.imports ∨ b ∈ v.testImports) → firstCharLowercase b = true →
       b ∈ filterImports v.imports ∨
         b ∈ filterImports (v.testImports \ v.imports)) := by
  refine ⟨?_, ?_, ?_⟩
  · intro v a b c top rest hinv h hbsh hbcr
    obtain ⟨v1, hs1, hstack1, hsm1, hh1, _, _, _, _, _, _, hinv1⟩ :=
      addImport_ok v a top rest hinv h
    have hst1 : v1.modStack = top :: rest := by rw [hstack1]; exact h
    have hb1 : b ∉ v1.scopeMods := by rw [hsm1]; exact hbsh
    obtain ⟨v2, hs2, hstack2, hsm2, hh2, _, _, _, hrec2, _, _, hinv2⟩ :=
      addImport_ok v1 b top rest hinv1 hst1
    have hst2 : v2.modStack = top :: rest := by rw [hstack2]; exact hst1
    obtain ⟨v3, e3, hs3, hst3, hok3, hsm3, himp3, htest3, hmem3⟩ :=
      addMod_useOk v2 c top rest hinv2 hst2
    refine ⟨v3, ?_, ?_, ?_⟩
    · simp only [visitNode, hs1, Option.bind, visitUseTree, hs2, hs3]
    · rcases hrec2 hb1 hbcr with hb2 | hb2
      · exact Or.inl (by rw [himp3]; exact hb2)
      · exact Or.inr (by rw [htest3]; exact hb2)
    · rw [hsm3, hsm2, hsm1]
  · intro n v v1 top rest hinv h hvisit
    obtain ⟨v2, hs2, hok2⟩ := visitNode_ok n v top rest hinv h
    rw [hvisit] at hs2
    injection hs2 with he
    subst he
    exact ⟨hok2.2.2.1, hok2.2.2.2.1⟩
  · intro v b hmem hlow
    rcases hmem with hb | hb
    · exact Or.inl (Finset.mem_filter.mpr ⟨hb, hlow⟩)
    · by_cases hbi : b ∈ v.imports
      · exact Or.inl (Finset.mem_filter.mpr ⟨hbi, hlow⟩)
      · exact Or.inr (Finset.mem_filter.mpr
          ⟨Finset.mem_sdiff.mpr ⟨hb, hbi⟩, hlow⟩)

/-!
## Concrete states and files used to instantiate the claims
-/

/-- A reachable-shape state whose top frame is test-only. -/
def vT2 : AstVisitor :=
  ⟨∅, ∅, [⟨[], true⟩, ⟨[], false⟩], ∅, ⟨false, false, false⟩⟩

theorem vT2_inv : VInv vT2 := by
  refine ⟨by simp [vT2], by decide, ?_⟩
  simp [ScopesDisjoint, vT2]

/-- A reachable-shape state with one local name in each open frame. -/
def vC5 : AstVisitor :=
  ⟨∅, ∅, [⟨["m"], false⟩, ⟨["n"], false⟩], insert "m" (insert "n" ∅),
   ⟨false, false, false⟩⟩

theorem vC5_inv : VInv vC5 := by
  refine ⟨by simp [vC5], by decide, ?_⟩
  simp [ScopesDisjoint, vC5]

/-- The literal #[cfg(test)] attribute. -/
def attrCfgTest : Attr :=
  ⟨.outer, ["cfg"], [.group .parenthesis [.ident "test"]]⟩

/-- A file referencing x at the root and again inside a cfg(test) mod. -/
def fileC3 : NodeList :=
  .cons (.pathExpr ["x", "y"])
    (.cons (.itemMod [attrCfgTest] "m" (.cons (.pathExpr ["x", "z"]) .nil))
      .nil)

/-- A file whose only reference is an uppercase-leading extern crate. -/
def fileC8 : NodeList := .cons (.itemExternCrate "Zeta") .nil

/-!
## Witnesses
-/

/-- C2 witness: in a state with a test-only top frame, a qualified path
reference leaves the normal bucket unchanged. -/
theorem claim_C2_witness :
    ∃ v1, visitNode vT2 (Node.pathExpr ["a", "b"]) = some v1 ∧
      v1.imports = vT2.imports := by
  refine ⟨_, rfl, ?_⟩
  exact claim_C2_test_only_monotonic.2.1 (Node.pathExpr ["a", "b"]) vT2 _
    ⟨[], true⟩ [⟨[], false⟩] vT2_inv rfl rfl rfl

/-- C4 witness: add_import records an unshadowed lowercase name. -/
theorem claim_C4_witness :
    ∃ v1, addImport initialVisitor "serde" = some v1 ∧
      ("serde" ∈ v1.imports ∨ "serde" ∈ v1.testImports) :=
  claim_C4_path_first_segment.2.2.2 initialVisitor "serde" ⟨[], false⟩ []
    initialVisitor_inv rfl (by decide) (by decide)

/-- C5 witness: popping the top frame removes exactly its local name. -/
theorem claim_C5_witness :
    ∃ v1, popScope vC5 = some v1 ∧
      v1.scopeMods = vC5.scopeMods \ (Scope.mk ["m"] false).mods.toFinset := by
  obtain ⟨v1, hs, _, hsd, _, _, _⟩ :=
    claim_C5_pop_exact_shadow_removal vC5 ⟨["m"], false⟩ [⟨["n"], false⟩]
      vC5_inv rfl (by decide)
  exact ⟨v1, hs, hsd⟩

/-- C6 witness: visiting an empty block from the root preserves depth. -/
theorem claim_C6_witness :
    ∃ v1, visitNode initialVisitor (Node.block NodeList.nil) = some v1 ∧
      v1.modStack.length = initialVisitor.modStack.length ∧
      v1.modStack ≠ [] := by
  obtain ⟨v1, hs, h2, h3⟩ :=
    claim_C6_stack_balance.2 (Node.block NodeList.nil) initialVisitor
      ⟨[], false⟩ [] initialVisitor_inv rfl
  exact ⟨v1, hs, h2, h3⟩

/-- C7 witness: fn main at the root sets has_main. -/
theorem claim_C7_witness :
    ∃ v1, visitNode initialVisitor (.itemFn [] "main" NodeList.nil) = some v1 ∧
      v1.hints.hasMain = true :=
  claim_C7_has_main_root_only.1 initialVisitor [] NodeList.nil ⟨[], false⟩
    initialVisitor_inv rfl

/-- C1 witness: use serde; classifies serde as a reference and also
declares it as a local name. -/
theorem claim_C1_witness :
    ∃ v1, visitNode initialVisitor (.itemUse (.name "serde")) = some v1 ∧
      ("serde" ∈ v1.imports ∨ "serde" ∈ v1.testImports) ∧
      "serde" ∈ v1.scopeMods := by
  obtain ⟨v1, hs, hb, hsm, _⟩ :=
    claim_C1_amended_plain_name.1 initialVisitor "serde" ⟨[], false⟩ []
      initialVisitor_inv rfl (by decide) (by decide)
  exact ⟨v1, hs, hb, hsm⟩

/-- C3 witness: x referenced at the root and inside a cfg(test) mod ends
up only in the normal output. -/
theorem claim_C3_witness :
    ∃ v r, visitNodes initialVisitor fileC3 = some v ∧
      analyzeAst fileC3 = some r ∧ "x" ∈ v.imports ∧ "x" ∈ v.testImports ∧
      "x" ∉ r.testImports ∧ "x" ∈ r.imports := by
  refine ⟨_, _, rfl, rfl, by decide, by decide, ?_, ?_⟩
  · exact ((claim_C3_test_output_difference fileC3 _ _ rfl rfl).2 "x"
      (by decide) (by decide)).1
  · exact ((claim_C3_test_output_difference fileC3 _ _ rfl rfl).2 "x"
      (by decide) (by decide)).2 (by decide)

/-- C8 witness: the uppercase-leading Zeta appears in neither output. -/
theorem claim_C8_witness :
    ∃ r, analyzeAst fileC8 = some r ∧ "Zeta" ∉ r.imports ∧
      "Zeta" ∉ r.testImports := by
  refine ⟨_, rfl, ?_, ?_⟩
  · exact (claim_C8_lowercase_filter.2 fileC8 _ "Zeta" rfl (by decide)).1
  · exact (claim_C8_lowercase_filter.2 fileC8 _ "Zeta" rfl (by decide)).2

/-- C9 witness: a concrete open failure exits the process with code 1. -/
theorem claim_C9_witness :
    parseImports (Except.error "boom") (Except.ok "")
      (fun _ => Except.ok NodeList.nil) = ParseOutcome.exited 1 ∧
    abortsProcess (parseImports (Except.error "boom") (Except.ok "")
      (fun _ => Except.ok NodeList.nil)) = true :=
  ⟨(claim_C9_amended_open_failure_exits "boom" (Except.ok "")
      (fun _ => Except.ok NodeList.nil)).1,
   (claim_C9_amended_open_failure_exits "boom" (Except.ok "")
      (fun _ => Except.ok NodeList.nil)).2.1⟩

/-- C10 witness: use a::b as c puts b in a bucket and declares only c. -/
theorem claim_C10_witness :
    ∃ v1, visitNode initialVisitor
        (.itemUse (.path "a" (.rename "b" "c"))) = some v1 ∧
      ("b" ∈ v1.imports ∨ "b" ∈ v1.testImports) ∧
      v1.scopeMods = insert "c" initialVisitor.scopeMods :=
  claim_C10_rename_classifies_original.1 initialVisitor "a" "b" "c"
    ⟨[], false⟩ [] initialVisitor_inv rfl (by decide) (by decide)
